import Mathlib

/-!
A shallow embedding of the in-memory transactional key-value store
implemented by the class `DBImitate` in `src/classes.py`, together with
proofs about it.

Modelling conventions.

* A Python value handed to the store is `Option α`: `none` models Python's
  `None`, `some a` a proper value.  Python lists are excluded from the value
  domain: the store itself uses two-element lists as change records and
  separates them from plain values with `isinstance(..., list)` checks, and
  the dispatcher in `src/cli.py` only ever passes strings.

* A Python dict is an association list `List (K × Entry α)` in insertion
  order: `d[k] = v` replaces the value of an existing key in place or
  appends a fresh key at the end, `d.pop(k)` removes the entry, and
  iteration (`for key in d`) walks the list front to back — exactly the
  observable behaviour of a Python dict.

* `self.transaction_log` is the Python list `[db, f1, ..., fn]` whose first
  element is the very `self.db` object (they alias) and whose last element
  is the innermost transaction frame.  The embedding stores the same data
  as the structure `⟨db, [fn, ..., f1]⟩`: the `txs` field keeps the
  transaction frames only, innermost first, so `transaction_log[-1]` is
  `txs.head`, `transaction_log[-2]` is the following frame (or `db` when
  only one transaction is active), `len(transaction_log)` is
  `txs.length + 1`, `transaction_log.append` is a cons onto `txs` and
  `transaction_log.pop()` — which the source only ever runs under a
  `len(...) > 1` guard, so frame 0 is never popped — is `txs.tail`.

* Fallible code returns `Except PyErr`: `keyError` is the `KeyError`
  Python raises on a missing dict subscript, `transactionError` the
  exception class `TransactionError` of the source (which has no raise
  site), and `typeConfusion` marks the places where the source subscripts
  a stored object that this embedding's value domain keeps unsubscriptable
  (a raw value where a change record is expected, or a record stored where
  a raw value is expected); each such place is commented where it occurs.
-/

set_option linter.unusedSectionVars false

namespace DB

/-- One stored object of a frame of the transaction log.
`raw w` is a plain Python value (possibly `None`) as frame 0 (`self.db`)
stores them; `record prev cur` is a two-element Python list
`[previous, current]` as the transaction frames store them: `prev` is the
value visible before this frame changed the key (`none` = absent) and
`cur` is the value this frame sets (`none` = the pending-delete marker). -/
inductive Entry (α : Type) where
  | raw : Option α → Entry α
  | record : Option α → Option α → Entry α
  deriving DecidableEq

namespace Entry

/-- `isinstance(e, list)` for a stored object. -/
def isRec {α : Type} : Entry α → Bool
  | .raw _ => false
  | .record _ _ => true

/-- The stored object is a plain (non-list) Python value. -/
def isRaw {α : Type} : Entry α → Bool
  | .raw _ => true
  | .record _ _ => false

end Entry

/-- A Python dict in insertion order. -/
abbrev Frame (K α : Type) := List (K × Entry α)

section FrameOps

variable {K α : Type} [DecidableEq K]

/-- `d[k]` / `k in d`: the value of the first (in a Python dict: only)
occurrence of the key. -/
def lookupF : Frame K α → K → Option (Entry α)
  | [], _ => none
  | (k', e) :: rest, k => if k = k' then some e else lookupF rest k

/-- `d[k] = e`: replace the value of an existing key in place, otherwise
append the new key at the end — a Python dict's update semantics. -/
def insertF : Frame K α → K → Entry α → Frame K α
  | [], k, e => [(k, e)]
  | (k', e') :: rest, k, e =>
      if k = k' then (k', e) :: rest else (k', e') :: insertF rest k e

/-- `d.pop(k)`: drop the first occurrence of the key (a no-op when the key
is absent; the source only calls it under a `key in d` guard). -/
def popF : Frame K α → K → Frame K α
  | [], _ => []
  | (k', e') :: rest, k => if k = k' then rest else (k', e') :: popF rest k

/-- The keys of a frame, in insertion order. -/
def keysF (f : Frame K α) : List K := f.map Prod.fst

end FrameOps

/-- What a Python operation of the store can raise. -/
inductive PyErr where
  | keyError
  | transactionError
  | typeConfusion
  deriving DecidableEq

/-- The state of `class DBImitate`: `db` is frame 0 (`self.db`), `txs` the
transaction frames of `self.transaction_log`, innermost first. -/
structure DBImitate (K α : Type) where
  db : Frame K α
  txs : List (Frame K α)
  deriving DecidableEq

/-- What `DBImitate.get` can return: a Python value (`val`), the sentinel
string `'NULL'` (`null`), or — on the `len(transaction_log) == 1` path,
where `self.db.get(key, 'NULL')` hands back the stored object unexamined —
a two-element list that ended up stored in frame 0 (`listVal`).  The
sentinel is modelled as distinct from every stored value, as §6 of the
specification reserves it. -/
inductive GetResult (α : Type) where
  | val : Option α → GetResult α
  | listVal : Option α → Option α → GetResult α
  | null
  deriving DecidableEq

namespace DBImitate

variable {K α : Type} [DecidableEq K] [DecidableEq α]

/-- `DBImitate.__init__`: an empty database and a transaction log holding
only frame 0. -/
def init : DBImitate K α := ⟨[], []⟩

/-- `DBImitate.set` (src/classes.py:34-52). -/
def set (s : DBImitate K α) (k : K) (v : Option α) :
    Except PyErr (DBImitate K α) :=
  match s.txs with
  | [] =>
      -- len(transaction_log) == 1: write straight into the database
      .ok ⟨insertF s.db k (.raw v), []⟩
  | t :: rest =>
    match rest with
    | p :: _ =>
        -- len(transaction_log) > 2: previous is looked up in the
        -- immediate parent frame only
        match lookupF p k with
        | some (.record _ c) => .ok ⟨s.db, insertF t k (.record c v) :: rest⟩
        | some (.raw _) =>
            -- transaction_log[-2][key][1] subscripts a non-list object;
            -- unreachable from reachable states (frames ≥ 1 hold records)
            .error .typeConfusion
        | none => .ok ⟨s.db, insertF t k (.record none v) :: rest⟩
    | [] =>
        -- len(transaction_log) == 2: previous is transaction_log[-2]
        -- .get(key, None), read from frame 0
        match lookupF s.db k with
        | some (.raw w) => .ok ⟨s.db, [insertF t k (.record w v)]⟩
        | some (.record _ _) =>
            -- Python would store the record object itself as previous,
            -- nesting lists beyond this embedding's Entry type; the state
            -- is only reachable once a record has been written into frame
            -- 0 (see the representation-invariant analysis) and no claim
            -- depends on it
            .error .typeConfusion
        | none => .ok ⟨s.db, [insertF t k (.record none v)]⟩

/-- How the innermost-to-outermost scan of `DBImitate.get` reads one stored
object: a record's current slot unless it is the pending-delete marker
(then `'NULL'`), a plain value as is. -/
def entryView {α : Type} : Entry α → GetResult α
  | .record _ (some x) => .val (some x)
  | .record _ none => .null
  | .raw w => .val w

/-- The `for transaction in reversed(self.transaction_log)` loop of
`DBImitate.get`: the first frame containing the key decides. -/
def scanLog (k : K) : List (Frame K α) → GetResult α
  | [] => .null
  | f :: fs =>
    match lookupF f k with
    | some e => entryView e
    | none => scanLog k fs

/-- `DBImitate.get` (src/classes.py:54-74).  With no active transaction it
is `self.db.get(key, 'NULL')`, returning the stored object unexamined;
otherwise it scans the whole log, frame 0 last. -/
def get (s : DBImitate K α) (k : K) : GetResult α :=
  match s.txs with
  | [] =>
    match lookupF s.db k with
    | none => .null
    | some (.raw w) => .val w
    | some (.record p c) => .listVal p c
  | _ :: _ => scanLog k (s.txs ++ [s.db])

/-- `DBImitate.unset` (src/classes.py:76-92). -/
def unset (s : DBImitate K α) (k : K) : Except PyErr (DBImitate K α) :=
  match s.txs with
  | [] =>
      -- no transaction: pop the key from the database if present
      if (lookupF s.db k).isSome then .ok ⟨popF s.db k, []⟩ else .ok s
  | t :: rest =>
    if (lookupF t k).isSome then
      -- the top frame already changed this key: drop that record
      .ok ⟨s.db, popF t k :: rest⟩
    else
      -- otherwise only `key in self.db` — frame 0, not the intermediate
      -- frames — decides whether a pending delete is recorded
      match lookupF s.db k with
      | some (.raw w) => .ok ⟨s.db, insertF t k (.record w none) :: rest⟩
      | some (.record _ _) =>
          -- Python would nest the record object inside a new record;
          -- outside this embedding's Entry type, unreachable from states
          -- whose frame 0 holds only raw values
          .error .typeConfusion
      | none => .ok s

/-- The filter of the `DBImitate.find` scan, line 108 of src/classes.py:
`(isinstance(e, list) and e[1] == value) or e == value`.  For a record the
second disjunct compares a Python list with a non-list value and is always
false; for a raw value the first disjunct is false. -/
def matchEntry {α : Type} [DecidableEq α] : Entry α → Option α → Bool
  | .record _ c, v => decide (c = v)
  | .raw w, v => decide (w = v)

/-- `keys.add(key)` on a Python set, modelled as append-if-absent.  A
Python set iterates in an unspecified order; the embedding fixes first-
insertion order, which the specification's order-insensitive reading of
`find` permits. -/
def addKey (ks : List K) (k : K) : List K :=
  if k ∈ ks then ks else ks ++ [k]

/-- The inner `for key in transaction` loop of `DBImitate.find`: a key is
kept when its stored object matches the value and the re-resolved current
value (`self.get(key) == value`) still matches. -/
def findFrame (s : DBImitate K α) (v : Option α) :
    List K → List (K × Entry α) → List K
  | acc, [] => acc
  | acc, (k, e) :: kvs =>
      findFrame s v
        (if matchEntry e v && decide (get s k = .val v) then addKey acc k
         else acc) kvs

/-- The outer `for transaction in reversed(self.transaction_log)` loop of
`DBImitate.find`. -/
def findFrames (s : DBImitate K α) (v : Option α) :
    List K → List (Frame K α) → List K
  | acc, [] => acc
  | acc, f :: fs => findFrames s v (findFrame s v acc f) fs

/-- `DBImitate.find` (src/classes.py:95-111): scan every frame innermost to
outermost, collect the matching keys into a set, return `list(keys)[::-1]`
(the final reversal of the — unspecified — set order). -/
def find (s : DBImitate K α) (v : Option α) : List K :=
  (findFrames s v [] (s.txs ++ [s.db])).reverse

/-- `DBImitate.counts` (src/classes.py:113-122): `len(self.find(value))`. -/
def counts (s : DBImitate K α) (v : Option α) : Nat := (s.find v).length

/-- `DBImitate.begin_transaction` (src/classes.py:124-128): push an empty
frame. -/
def begin_transaction (s : DBImitate K α) : DBImitate K α :=
  ⟨s.db, [] :: s.txs⟩

/-- One iteration of the merge loop of `DBImitate.commit_transaction`
(src/classes.py:137-147), applied to the parent frame `p`.  `intoDb` is
true when the parent is frame 0 (`len(transaction_log) == 2`), where the
set branch writes the raw current value into the database; the delete
branch's `transaction_log[-2]` is the same dict either way. -/
def mergeStep (intoDb : Bool) (p : Frame K α) (kv : K × Entry α) :
    Except PyErr (Frame K α) :=
  match kv.2 with
  | .raw _ =>
      -- transaction_log[-1][key][1] subscripts a non-list object;
      -- unreachable (frames ≥ 1 hold records only)
      .error .typeConfusion
  | .record prev cur =>
    match cur with
    | none =>
        -- the transaction deletes the value
        .ok (if (lookupF p kv.1).isSome then popF p kv.1
             else insertF p kv.1 (.record prev none))
    | some c =>
        -- the transaction sets or creates the value
        .ok (if intoDb then insertF p kv.1 (.raw (some c))
             else insertF p kv.1 (.record prev (some c)))

/-- The whole `for key in self.transaction_log[-1]` merge loop of
`DBImitate.commit_transaction`, folded over the top frame in insertion
order while the parent frame is updated. -/
def foldMerge (intoDb : Bool) :
    Frame K α → List (K × Entry α) → Except PyErr (Frame K α)
  | p, [] => .ok p
  | p, kv :: kvs =>
    match mergeStep intoDb p kv with
    | .ok p' => foldMerge intoDb p' kvs
    | .error e => .error e

/-- One iteration of the restore loop of `DBImitate.rollback_transaction`
(src/classes.py:158-163), applied to the parent frame `p`.  Only keys whose
previous slot is not `None` restore anything; with frame 0 as parent
(`intoDb`) the previous value is written back raw, otherwise
`transaction_log[-2][key][1] = previous` updates the current slot of the
parent's record — and raises `KeyError` when the parent holds no record
for the key. -/
def rbStep (intoDb : Bool) (p : Frame K α) (kv : K × Entry α) :
    Except PyErr (Frame K α) :=
  match kv.2 with
  | .raw _ =>
      -- transaction_log[-1][key][0] subscripts a non-list object;
      -- unreachable (frames ≥ 1 hold records only)
      .error .typeConfusion
  | .record prev _ =>
    match prev with
    | none => .ok p
    | some w =>
      if intoDb then .ok (insertF p kv.1 (.raw (some w)))
      else
        match lookupF p kv.1 with
        | none => .error .keyError
        | some (.raw _) =>
            -- assigning to item 1 of a non-list object; unreachable
            .error .typeConfusion
        | some (.record q _) => .ok (insertF p kv.1 (.record q (some w)))

/-- The whole restore loop of `DBImitate.rollback_transaction`. -/
def foldRb (intoDb : Bool) :
    Frame K α → List (K × Entry α) → Except PyErr (Frame K α)
  | p, [] => .ok p
  | p, kv :: kvs =>
    match rbStep intoDb p kv with
    | .ok p' => foldRb intoDb p' kvs
    | .error e => .error e

/-- `DBImitate.rollback_transaction` (src/classes.py:153-165): a no-op
without an active transaction, otherwise restore the parent frame from the
top frame's previous slots and pop the top frame. -/
def rollback_transaction (s : DBImitate K α) : Except PyErr (DBImitate K α) :=
  match s.txs with
  | [] => .ok s
  | t :: rest =>
    match rest with
    | [] => (foldRb true s.db t).map fun db' => ⟨db', []⟩
    | p :: rest' => (foldRb false p t).map fun p' => ⟨s.db, p' :: rest'⟩

/-- `DBImitate.commit_transaction` (src/classes.py:130-151): a no-op
without an active transaction, otherwise merge the top frame into its
parent (frame 0 itself when only one transaction is active) and pop it.
The source wraps the loop in `try ... except TransactionError:
self.rollback_transaction()`; since `TransactionError` has no raise site
that handler is dead code, and every other exception propagates. -/
def commit_transaction (s : DBImitate K α) : Except PyErr (DBImitate K α) :=
  match s.txs with
  | [] => .ok s
  | t :: rest =>
    let merged : Except PyErr (DBImitate K α) :=
      match rest with
      | [] => (foldMerge true s.db t).map fun db' => ⟨db', []⟩
      | p :: rest' => (foldMerge false p t).map fun p' => ⟨s.db, p' :: rest'⟩
    match merged with
    | .ok s' => .ok s'
    | .error .transactionError => rollback_transaction s
    | .error e => .error e

end DBImitate

/-- One call of the store's public interface, for stating properties about
sequences of operations. -/
inductive Op (K α : Type) where
  | set : K → Option α → Op K α
  | get : K → Op K α
  | unset : K → Op K α
  | find : Option α → Op K α
  | counts : Option α → Op K α
  | begin : Op K α
  | commit : Op K α
  | rollback : Op K α
  deriving DecidableEq

section Run

variable {K α : Type} [DecidableEq K] [DecidableEq α]

/-- Execute one operation.  `get`, `find` and `counts` read the store
without mutating it and never raise, so as state transitions they are
identities. -/
def step (s : DBImitate K α) : Op K α → Except PyErr (DBImitate K α)
  | .set k v => s.set k v
  | .get _ => .ok s
  | .unset k => s.unset k
  | .find _ => .ok s
  | .counts _ => .ok s
  | .begin => .ok s.begin_transaction
  | .commit => s.commit_transaction
  | .rollback => s.rollback_transaction

/-- Execute a sequence of operations, stopping at the first raised
exception. -/
def run (s : DBImitate K α) : List (Op K α) → Except PyErr (DBImitate K α)
  | [] => .ok s
  | op :: ops =>
    match step s op with
    | .ok s' => run s' ops
    | .error e => .error e

end Run

section SpecSide

variable {K α : Type} [DecidableEq K] [DecidableEq α]
open DBImitate

/-- The resolution rule as §3 of the specification states it, written from
the specification's words for comparison with `DBImitate.get`: scan the
frames innermost to outermost, frame 0 last; the first frame containing
the key determines visibility — a transaction frame's record makes its
current slot visible unless it is the pending-delete marker (then
`'NULL'`), and frame 0 makes its raw value visible, whatever object is
stored there (for a record stored in frame 0 the stored object itself is
the raw value).  A raw value sitting in a transaction frame lies outside
the specification's data model; the stored value is taken as visible. -/
def specScan (db : Frame K α) (k : K) : List (Frame K α) → GetResult α
  | [] =>
    match lookupF db k with
    | some (.raw w) => .val w
    | some (.record p c) => .listVal p c
    | none => .null
  | f :: fs =>
    match lookupF f k with
    | some (.record _ (some x)) => .val (some x)
    | some (.record _ none) => .null
    | some (.raw w) => .val w
    | none => specScan db k fs

/-- The §3 resolution rule applied to a store state. -/
def resolutionRuleSpec (s : DBImitate K α) (k : K) : GetResult α :=
  specScan s.db k s.txs

/-- Frame 0 holds raw values only (second half of the §3 representation
invariant). -/
def dbRawOnly (s : DBImitate K α) : Bool :=
  s.db.all fun kv => (kv.2).isRaw

/-- Frames ≥ 1 hold change records exclusively (first half of the §3
representation invariant). -/
def txsRecOnly (s : DBImitate K α) : Bool :=
  s.txs.all fun f => f.all fun kv => (kv.2).isRec

/-- The §3 representation invariant on the frame contents.  (That the
stack always keeps frame 0 as its bottom frame is structural in this
embedding: the source pops the log only under a `len(...) > 1` guard,
which the `txs`/`db` split mirrors exactly.) -/
def reprInvariant (s : DBImitate K α) : Bool :=
  dbRawOnly s && txsRecOnly s

/-- The strengthened induction invariant: the §3 representation invariant
together with the facts that every pending-delete record's key is still
present in frame 0 and that every frame, as a Python dict, has no
duplicate keys. -/
def FramesOK (s : DBImitate K α) : Prop :=
  (∀ kv ∈ s.db, (kv.2).isRaw = true) ∧
  (∀ f ∈ s.txs, ∀ kv ∈ f, (kv.2).isRec = true) ∧
  (∀ f ∈ s.txs, ∀ kv ∈ f, ∀ p : Option α,
      kv.2 = .record p none → (lookupF s.db kv.1).isSome = true) ∧
  (keysF s.db).Nodup ∧
  (∀ f ∈ s.txs, (keysF f).Nodup)

/-- The operations of a sequence never pass the value `None` to `set`
while a transaction is active (the collision of `None` with the
pending-delete marker is what lets a change record leak into frame 0). -/
def safeOps (s : DBImitate K α) : List (Op K α) → Bool
  | [] => true
  | op :: ops =>
    (match op with
     | .set _ v => s.txs.isEmpty || v.isSome
     | _ => true) &&
    (match step s op with
     | .ok s' => safeOps s' ops
     | .error _ => true)

end SpecSide

/-! Lemmas about the association-list model of a Python dict. -/

section FrameLemmas

variable {K α : Type} [DecidableEq K]

theorem lookupF_insertF (f : Frame K α) (k j : K) (e : Entry α) :
    lookupF (insertF f k e) j = if j = k then some e else lookupF f j := by
  induction f with
  | nil => simp [insertF, lookupF]
  | cons kv rest ih =>
    obtain ⟨k', e'⟩ := kv
    by_cases hk : k = k'
    · subst hk
      by_cases hj : j = k <;> simp [insertF, lookupF, hj]
    · by_cases hj : j = k'
      · subst hj
        simp [insertF, lookupF, hk, Ne.symm hk, fun h : j = k => hk (h ▸ rfl)]
      · simp [insertF, lookupF, hk, hj, ih]

theorem lookupF_popF_ne (f : Frame K α) (k j : K) (h : j ≠ k) :
    lookupF (popF f k) j = lookupF f j := by
  induction f with
  | nil => simp [popF]
  | cons kv rest ih =>
    obtain ⟨k', e'⟩ := kv
    by_cases hk : k = k'
    · subst hk
      simp [popF, lookupF, h]
    · by_cases hj : j = k' <;> simp [popF, lookupF, hk, hj, ih]

theorem lookupF_eq_none (f : Frame K α) (k : K) (h : k ∉ keysF f) :
    lookupF f k = none := by
  induction f with
  | nil => simp [lookupF]
  | cons kv rest ih =>
    obtain ⟨k', e'⟩ := kv
    simp only [keysF, List.map_cons, List.mem_cons] at h
    push_neg at h
    simp [lookupF, h.1, ih (by simpa [keysF] using h.2)]

theorem lookupF_popF_self (f : Frame K α) (k : K) (h : (keysF f).Nodup) :
    lookupF (popF f k) k = none := by
  induction f with
  | nil => simp [popF, lookupF]
  | cons kv rest ih =>
    obtain ⟨k', e'⟩ := kv
    simp only [keysF, List.map_cons, List.nodup_cons] at h
    by_cases hk : k = k'
    · subst hk
      simpa [popF] using lookupF_eq_none rest k h.1
    · simp [popF, lookupF, hk, ih h.2]

theorem mem_of_lookupF {f : Frame K α} {k : K} {e : Entry α}
    (h : lookupF f k = some e) : (k, e) ∈ f := by
  induction f with
  | nil => simp [lookupF] at h
  | cons kv rest ih =>
    obtain ⟨k', e'⟩ := kv
    by_cases hk : k = k'
    · subst hk
      have h' : e' = e := by simpa [lookupF] using h
      simp [h']
    · simp only [lookupF, if_neg hk] at h
      simp [ih h]

theorem popF_sublist (f : Frame K α) (k : K) : List.Sublist (popF f k) f := by
  induction f with
  | nil => simp [popF]
  | cons kv rest ih =>
    obtain ⟨k', e'⟩ := kv
    by_cases hk : k = k'
    · simp only [popF, if_pos hk]
      exact List.sublist_cons_self _ _
    · simp only [popF, if_neg hk]
      exact ih.cons₂ (k', e')

theorem mem_popF {f : Frame K α} {k : K} {kv : K × Entry α}
    (h : kv ∈ popF f k) : kv ∈ f :=
  (popF_sublist f k).mem h

theorem nodup_keysF_popF {f : Frame K α} (k : K) (h : (keysF f).Nodup) :
    (keysF (popF f k)).Nodup :=
  ((popF_sublist f k).map Prod.fst).nodup h

theorem mem_insertF {f : Frame K α} {k : K} {e : Entry α} {kv : K × Entry α}
    (h : kv ∈ insertF f k e) : kv ∈ f ∨ kv = (k, e) := by
  induction f with
  | nil => simpa [insertF] using h
  | cons kv' rest ih =>
    obtain ⟨k', e'⟩ := kv'
    by_cases hk : k = k'
    · subst hk
      simp only [insertF, if_pos rfl] at h
      rcases List.mem_cons.mp h with h1 | h1
      · exact Or.inr h1
      · exact Or.inl (List.mem_cons_of_mem _ h1)
    · simp only [insertF, if_neg hk] at h
      rcases List.mem_cons.mp h with h1 | h1
      · exact Or.inl (by simp [h1])
      · rcases ih h1 with h2 | h2
        · exact Or.inl (List.mem_cons_of_mem _ h2)
        · exact Or.inr h2

theorem keysF_insertF (f : Frame K α) (k : K) (e : Entry α) :
    keysF (insertF f k e) =
      if k ∈ keysF f then keysF f else keysF f ++ [k] := by
  induction f with
  | nil => simp [insertF, keysF]
  | cons kv rest ih =>
    obtain ⟨k', e'⟩ := kv
    by_cases hk : k = k'
    · subst hk
      simp [insertF, keysF]
    · by_cases hmem : k ∈ keysF rest
      · simp [insertF, hk, keysF, hmem, Ne.symm, ih] at ih ⊢
        simp [keysF] at hmem ih
        simp [hmem, ih]
      · simp [insertF, hk, keysF, hmem] at ih ⊢
        simp [keysF] at hmem ih
        simp [hmem, hk, ih]

theorem nodup_keysF_insertF {f : Frame K α} (k : K) (e : Entry α)
    (h : (keysF f).Nodup) : (keysF (insertF f k e)).Nodup := by
  rw [keysF_insertF]
  by_cases hmem : k ∈ keysF f
  · simpa [hmem] using h
  · simp only [if_neg hmem]
    refine List.Nodup.append h (List.nodup_singleton k) ?_
    intro x hx hx'
    simp only [List.mem_singleton] at hx'
    subst hx'
    exact hmem hx

theorem isSome_lookupF_insertF {f : Frame K α} {j : K} (k : K) (e : Entry α)
    (h : (lookupF f j).isSome = true) :
    (lookupF (insertF f k e) j).isSome = true := by
  rw [lookupF_insertF]
  by_cases hj : j = k <;> simp [hj, h]

end FrameLemmas

section Claims

open DBImitate

/-- C1: the specification's scenario `BEGIN; SET b 5; BEGIN; UNSET b;
COMMIT; COMMIT; GET b` does NOT return `'NULL'` on this code: the inner
`UNSET b` consults only frame 0 (`key in self.db`), where `b` is absent —
`b` lives solely in the outer transaction frame — so no pending delete is
recorded and the outer commit writes `5` into the database.  This theorem
evaluates the embedded code on the scenario: `GET b` returns `'5'`. -/
theorem unset_scenario_returns_five :
    (run (init : DBImitate String String)
        [.begin, .set "b" (some "5"), .begin, .unset "b", .commit,
         .commit]).map (fun s => get s "b") = .ok (.val (some "5")) := by
  rfl

/-- C2: the operations are not total.  `rollback_transaction` raises
`KeyError` on a reachable state: after `begin; begin; set k a; begin;
set k b; commit`, the middle frame holds the record `[a, b]` for `k` while
its parent frame holds no record for `k`, and the rollback's
`self.transaction_log[-2][key][1] = ...` subscripts the missing key. -/
theorem rollback_raises_keyerror :
    run (init : DBImitate String String)
        [.begin, .begin, .set "k" (some "a"), .begin, .set "k" (some "b"),
         .commit, .rollback] = .error .keyError := by
  rfl

/-- C3: inner transaction wins on nested commit — for every key and all
values, `set k v0; begin; set k v1; begin; set k v2; commit; commit`
resolves `k` to `v2`. -/
theorem inner_transaction_wins :
    ∀ (K α : Type) [DecidableEq K] [DecidableEq α] (k : K) (v0 v1 v2 : α),
      (run (init : DBImitate K α)
          [.set k (some v0), .begin, .set k (some v1), .begin,
           .set k (some v2), .commit, .commit]).map (fun s => get s k) =
        .ok (.val (some v2)) := by
  intro K α _ _ k v0 v1 v2
  simp [run, step, init, DBImitate.set, begin_transaction, commit_transaction,
    foldMerge, mergeStep, DBImitate.get, scanLog, entryView, lookupF, insertF,
    Except.map]

/-- C5: rollback restores prior visibility — for every key and all values,
`set k v1; begin; set k v2; rollback` resolves `k` back to `v1`. -/
theorem rollback_restores_value :
    ∀ (K α : Type) [DecidableEq K] [DecidableEq α] (k : K) (v1 v2 : α),
      (run (init : DBImitate K α)
          [.set k (some v1), .begin, .set k (some v2), .rollback]).map
        (fun s => get s k) = .ok (.val (some v1)) := by
  intro K α _ _ k v1 v2
  simp [run, step, init, DBImitate.set, begin_transaction,
    rollback_transaction, foldRb, rbStep, DBImitate.get, lookupF, insertF,
    Except.map]

/-- C7: with two or more transaction frames active, `set` computes
`previous` from the immediate parent frame alone — the parent's record's
current slot when the parent holds a record for the key, absent otherwise
— regardless of what any ancestor frame beyond the parent (frame 0
included) holds, and stores the record in the top frame. -/
theorem set_shallow_previous :
    ∀ (K α : Type) [DecidableEq K] [DecidableEq α] (s : DBImitate K α)
      (k : K) (v : Option α) (t p : Frame K α) (rest : List (Frame K α)),
      s.txs = t :: p :: rest →
      ((∀ a c : Option α, lookupF p k = some (.record a c) →
          DBImitate.set s k v =
            .ok ⟨s.db, insertF t k (.record c v) :: p :: rest⟩) ∧
       (lookupF p k = none →
          DBImitate.set s k v =
            .ok ⟨s.db, insertF t k (.record none v) :: p :: rest⟩)) := by
  intro K α _ _ s k v t p rest h
  obtain ⟨db, txs⟩ := s
  simp only at h
  subst h
  constructor
  · intro a c hlook
    simp [DBImitate.set, hlook]
  · intro hlook
    simp [DBImitate.set, hlook]

/-- C10: the value `None` collides with the pending-delete marker.  With a
transaction active, `set k None` stores the record `[previous, None]`,
which `get` reads as a pending delete: `get k` returns `'NULL'`.  With no
transaction active, `set k None` writes the raw value `None` into frame 0
and `get k` returns `None` itself (not the sentinel). -/
theorem set_none_collides_with_delete_marker :
    (∀ (K α : Type) [DecidableEq K] [DecidableEq α] (s s' : DBImitate K α)
       (k : K), s.txs ≠ [] → DBImitate.set s k none = .ok s' →
       get s' k = .null) ∧
    (∀ (K α : Type) [DecidableEq K] [DecidableEq α] (s : DBImitate K α)
       (k : K), s.txs = [] →
       DBImitate.set s k none = .ok ⟨insertF s.db k (.raw none), []⟩ ∧
       get (⟨insertF s.db k (.raw none), []⟩ : DBImitate K α) k =
         .val none) := by
  constructor
  · intro K α _ _ s s' k hne hset
    obtain ⟨db, txs⟩ := s
    cases txs with
    | nil => exact absurd rfl hne
    | cons t rest =>
      cases rest with
      | nil =>
        cases hdb : lookupF db k with
        | none =>
          simp only [DBImitate.set, hdb] at hset
          rw [Except.ok.injEq] at hset
          subst hset
          simp [DBImitate.get, scanLog, lookupF_insertF, entryView]
        | some e =>
          cases e with
          | raw w =>
            simp only [DBImitate.set, hdb] at hset
            rw [Except.ok.injEq] at hset
            subst hset
            simp [DBImitate.get, scanLog, lookupF_insertF, entryView]
          | record a c =>
            simp [DBImitate.set, hdb] at hset
      | cons p rest' =>
        cases hp : lookupF p k with
        | none =>
          simp only [DBImitate.set, hp] at hset
          rw [Except.ok.injEq] at hset
          subst hset
          simp [DBImitate.get, scanLog, lookupF_insertF, entryView]
        | some e =>
          cases e with
          | raw w => simp [DBImitate.set, hp] at hset
          | record a c =>
            simp only [DBImitate.set, hp] at hset
            rw [Except.ok.injEq] at hset
            subst hset
            simp [DBImitate.get, scanLog, lookupF_insertF, entryView]
  · intro K α _ _ s k h
    obtain ⟨db, txs⟩ := s
    simp only at h
    subst h
    exact ⟨rfl, by simp [DBImitate.get, lookupF_insertF]⟩

end Claims

section MergeLemmas

variable {K α : Type} [DecidableEq K]
open DBImitate

/-- Folding the commit merge loop (with a transaction frame as parent)
over entries none of which concerns the key `k` succeeds — every entry is
a record — and leaves the parent's binding of `k` untouched. -/
theorem foldMerge_preserve_of_not_mem {k : K} :
    ∀ (kvs : List (K × Entry α)) (p : Frame K α),
      (∀ kv ∈ kvs, (kv.2).isRec = true) → k ∉ keysF kvs →
      ∃ p', foldMerge false p kvs = .ok p' ∧ lookupF p' k = lookupF p k := by
  intro kvs
  induction kvs with
  | nil => exact fun p _ _ => ⟨p, rfl, rfl⟩
  | cons kv kvs ih =>
    intro p hrec hnk
    obtain ⟨j, e⟩ := kv
    simp only [keysF, List.map_cons, List.mem_cons] at hnk
    push_neg at hnk
    obtain ⟨hjk, hnk'⟩ := hnk
    have hrec' : ∀ kv ∈ kvs, (kv.2).isRec = true :=
      fun kv h => hrec kv (List.mem_cons_of_mem _ h)
    rcases e with w | ⟨pr, c⟩
    · have := hrec (j, .raw w) (List.mem_cons_self _ _)
      simp [Entry.isRec] at this
    · rcases c with _ | c
      · by_cases hm : (lookupF p j).isSome = true
        · rcases ih (popF p j) hrec' (by simpa [keysF] using hnk')
            with ⟨p', h1, h2⟩
          refine ⟨p', by simp [foldMerge, mergeStep, hm, h1], ?_⟩
          rw [h2, lookupF_popF_ne _ _ _ hjk]
        · rcases ih (insertF p j (.record pr none)) hrec'
            (by simpa [keysF] using hnk') with ⟨p', h1, h2⟩
          refine ⟨p', by simp [foldMerge, mergeStep, hm, h1], ?_⟩
          rw [h2, lookupF_insertF, if_neg hjk]
      · rcases ih (insertF p j (.record pr (some c))) hrec'
          (by simpa [keysF] using hnk') with ⟨p', h1, h2⟩
        refine ⟨p', by simp [foldMerge, mergeStep, h1], ?_⟩
        rw [h2, lookupF_insertF, if_neg hjk]

/-- Folding the commit merge loop of a top frame that holds a
pending-delete record for `k` over a parent transaction frame that binds
`k` succeeds and removes the parent's binding of `k` entirely. -/
theorem foldMerge_drop_delete {k : K} (q : Option α) :
    ∀ (t : List (K × Entry α)) (p : Frame K α),
      (∀ kv ∈ t, (kv.2).isRec = true) → (keysF t).Nodup →
      (keysF p).Nodup → lookupF t k = some (.record q none) →
      (lookupF p k).isSome = true →
      ∃ p', foldMerge false p t = .ok p' ∧ lookupF p' k = none := by
  intro t
  induction t with
  | nil => intro p _ _ _ h _; simp [lookupF] at h
  | cons kv kvs ih =>
    intro p hrec hndt hndp hlook hmem
    obtain ⟨j, e⟩ := kv
    have hrec' : ∀ kv ∈ kvs, (kv.2).isRec = true :=
      fun kv h => hrec kv (List.mem_cons_of_mem _ h)
    by_cases hkj : k = j
    · subst hkj
      have he : e = .record q none := by simpa [lookupF] using hlook
      subst he
      have hnk : k ∉ keysF kvs := by
        simp only [keysF, List.map_cons, List.nodup_cons] at hndt
        simpa [keysF] using hndt.1
      rcases foldMerge_preserve_of_not_mem kvs (popF p k) hrec' hnk
        with ⟨p', h1, h2⟩
      refine ⟨p', by simp [foldMerge, mergeStep, hmem, h1], ?_⟩
      rw [h2, lookupF_popF_self _ _ hndp]
    · have hlook' : lookupF kvs k = some (.record q none) := by
        simpa [lookupF, hkj] using hlook
      have hndt' : (keysF kvs).Nodup := by
        simp only [keysF, List.map_cons, List.nodup_cons] at hndt
        simpa [keysF] using hndt.2
      rcases e with w | ⟨pr, c⟩
      · have := hrec (j, .raw w) (List.mem_cons_self _ _)
        simp [Entry.isRec] at this
      · rcases c with _ | c
        · by_cases hm : (lookupF p j).isSome = true
          · rcases ih (popF p j) hrec' hndt' (nodup_keysF_popF _ hndp)
              hlook' (by rw [lookupF_popF_ne _ _ _ hkj]; exact hmem)
              with ⟨p', h1, h2⟩
            exact ⟨p', by simp [foldMerge, mergeStep, hm, h1], h2⟩
          · rcases ih (insertF p j (.record pr none)) hrec' hndt'
              (nodup_keysF_insertF _ _ hndp) hlook'
              (by rw [lookupF_insertF, if_neg hkj]; exact hmem)
              with ⟨p', h1, h2⟩
            exact ⟨p', by simp [foldMerge, mergeStep, hm, h1], h2⟩
        · rcases ih (insertF p j (.record pr (some c))) hrec' hndt'
            (nodup_keysF_insertF _ _ hndp) hlook'
            (by rw [lookupF_insertF, if_neg hkj]; exact hmem)
            with ⟨p', h1, h2⟩
          exact ⟨p', by simp [foldMerge, mergeStep, h1], h2⟩

end MergeLemmas

section ClaimsTwo

open DBImitate

/-- C6: commit-time delete absorption.  In every state of the data model
with depth ≥ 3 whose top frame holds a pending-delete record for `k` and
whose immediate parent transaction frame binds `k`, `commit_transaction`
succeeds, drops the parent's binding of `k` entirely and propagates no
record for `k`; consequently `set k v; begin; unset k; begin; unset k;
commit; commit` from a fresh store leaves `get k = v`. -/
theorem commit_absorbs_child_delete :
    (∀ (K α : Type) [DecidableEq K] [DecidableEq α] (s : DBImitate K α)
       (k : K) (q : Option α) (t p : Frame K α) (rest : List (Frame K α)),
       s.txs = t :: p :: rest →
       (∀ kv ∈ t, (kv.2).isRec = true) → (keysF t).Nodup →
       (keysF p).Nodup → lookupF t k = some (.record q none) →
       (lookupF p k).isSome = true →
       ∃ p', commit_transaction s = .ok ⟨s.db, p' :: rest⟩ ∧
         lookupF p' k = none) ∧
    (∀ (K α : Type) [DecidableEq K] [DecidableEq α] (k : K) (v : α),
       (run (init : DBImitate K α)
           [.set k (some v), .begin, .unset k, .begin, .unset k, .commit,
            .commit]).map (fun s => get s k) = .ok (.val (some v))) := by
  constructor
  · intro K α _ _ s k q t p rest h hrec hndt hndp hlook hmem
    obtain ⟨db, txs⟩ := s
    simp only at h
    subst h
    rcases foldMerge_drop_delete q t p hrec hndt hndp hlook hmem
      with ⟨p', h1, h2⟩
    exact ⟨p', by simp [commit_transaction, h1, Except.map], h2⟩
  · intro K α _ _ k v
    simp [run, step, init, DBImitate.set, DBImitate.unset, begin_transaction,
      commit_transaction, foldMerge, mergeStep, DBImitate.get, scanLog,
      entryView, lookupF, insertF, popF, Except.map]

end ClaimsTwo

section ScanLemmas

variable {K α : Type} [DecidableEq K]
open DBImitate

/-- When frame 0 holds raw values only, the get scan over the whole log
(frame 0 last) computes exactly the §3 resolution rule. -/
theorem scanLog_eq_specScan (db : Frame K α) (k : K)
    (hdb : ∀ kv ∈ db, (kv.2).isRaw = true) :
    ∀ l : List (Frame K α), scanLog k (l ++ [db]) = specScan db k l := by
  intro l
  induction l with
  | nil =>
    simp only [List.nil_append, scanLog, specScan]
    cases hl : lookupF db k with
    | none => simp [scanLog]
    | some e =>
      have hraw := hdb (k, e) (mem_of_lookupF hl)
      cases e with
      | raw w => simp [entryView]
      | record a c => simp [Entry.isRaw] at hraw
  | cons f fs ih =>
    simp only [List.cons_append, scanLog, specScan]
    cases hf : lookupF f k with
    | none => simpa using ih
    | some e =>
      cases e with
      | raw w => simp [entryView]
      | record a c => cases c <;> simp [entryView]

/-- A scan that returns a plain value found it in some frame of the list,
stored as an object whose view is that value. -/
theorem scanLog_val_exists (k : K) (v : Option α) :
    ∀ l : List (Frame K α), scanLog k l = .val v →
      ∃ f ∈ l, ∃ e, lookupF f k = some e ∧ entryView e = .val v := by
  intro l
  induction l with
  | nil => intro h; simp [scanLog] at h
  | cons f fs ih =>
    intro h
    simp only [scanLog] at h
    cases hf : lookupF f k with
    | none =>
      rw [hf] at h
      rcases ih h with ⟨f', hf', e, he, hv⟩
      exact ⟨f', List.mem_cons_of_mem _ hf', e, he, hv⟩
    | some e =>
      rw [hf] at h
      exact ⟨f, List.mem_cons_self _ _, e, hf, h⟩

/-- A stored object whose get view is the plain value `v` passes the find
scan's per-entry filter for `v`. -/
theorem matchEntry_of_entryView [DecidableEq α] {e : Entry α}
    {v : Option α} (h : entryView e = .val v) : matchEntry e v = true := by
  cases e with
  | raw w =>
    simp only [entryView, GetResult.val.injEq] at h
    simp [matchEntry, h]
  | record p c =>
    cases c with
    | none => simp [entryView] at h
    | some x =>
      simp only [entryView, GetResult.val.injEq] at h
      simp [matchEntry, h]

end ScanLemmas

section FindLemmas

variable {K α : Type} [DecidableEq K] [DecidableEq α]
open DBImitate

/-- Membership in the find set after `keys.add(key)`. -/
theorem mem_addKey {ks : List K} {j k : K} :
    j ∈ addKey ks k ↔ j ∈ ks ∨ j = k := by
  by_cases h : k ∈ ks
  · simp only [addKey, if_pos h]
    constructor
    · exact Or.inl
    · rintro (h1 | rfl)
      · exact h1
      · exact h
  · simp [addKey, if_neg h, List.mem_append]

/-- `keys.add(key)` keeps the collected keys duplicate-free. -/
theorem nodup_addKey {ks : List K} (k : K) (h : ks.Nodup) :
    (addKey ks k).Nodup := by
  by_cases hm : k ∈ ks
  · simpa [addKey, hm] using h
  · simp only [addKey, if_neg hm]
    refine h.append (List.nodup_singleton k) ?_
    intro x hx hx'
    simp only [List.mem_singleton] at hx'
    subst hx'
    exact hm hx

/-- What the inner find loop collects: a key enters iff it was already
collected or some entry of the scanned frame carries it, matches the
value, and the re-resolution check (`self.get(key) == value`) passes. -/
theorem mem_findFrame (s : DBImitate K α) (v : Option α) (j : K) :
    ∀ (kvs : List (K × Entry α)) (acc : List K),
      j ∈ findFrame s v acc kvs ↔
        j ∈ acc ∨ ∃ e, (j, e) ∈ kvs ∧ matchEntry e v = true ∧
          DBImitate.get s j = .val v := by
  intro kvs
  induction kvs with
  | nil => intro acc; simp [findFrame]
  | cons kv kvs ih =>
    intro acc
    obtain ⟨k, e⟩ := kv
    simp only [findFrame]
    constructor
    · intro h
      rcases (ih _).mp h with hmem | ⟨e', he', hm', hg'⟩
      · by_cases hc :
            (matchEntry e v && decide (DBImitate.get s k = GetResult.val v))
              = true
        · rw [if_pos hc] at hmem
          rcases mem_addKey.mp hmem with hmem' | rfl
          · exact Or.inl hmem'
          · rw [Bool.and_eq_true, decide_eq_true_eq] at hc
            exact Or.inr ⟨e, List.mem_cons_self _ _, hc.1, hc.2⟩
        · rw [if_neg hc] at hmem
          exact Or.inl hmem
      · exact Or.inr ⟨e', List.mem_cons_of_mem _ he', hm', hg'⟩
    · intro h
      rcases h with hmem | ⟨e', he', hm', hg'⟩
      · refine (ih _).mpr (Or.inl ?_)
        by_cases hc :
            (matchEntry e v && decide (DBImitate.get s k = GetResult.val v))
              = true
        · rw [if_pos hc]
          exact mem_addKey.mpr (Or.inl hmem)
        · rw [if_neg hc]
          exact hmem
      · rcases List.mem_cons.mp he' with hhead | htail
        · rw [Prod.mk.injEq] at hhead
          obtain ⟨rfl, rfl⟩ := hhead
          refine (ih _).mpr (Or.inl ?_)
          have hc :
              (matchEntry e' v && decide (DBImitate.get s j = GetResult.val v))
                = true := by
            rw [Bool.and_eq_true, decide_eq_true_eq]
            exact ⟨hm', hg'⟩
          rw [if_pos hc]
          exact mem_addKey.mpr (Or.inr rfl)
        · exact (ih _).mpr (Or.inr ⟨e', htail, hm', hg'⟩)

/-- The inner find loop keeps the collected keys duplicate-free. -/
theorem nodup_findFrame (s : DBImitate K α) (v : Option α) :
    ∀ (kvs : List (K × Entry α)) (acc : List K),
      acc.Nodup → (findFrame s v acc kvs).Nodup := by
  intro kvs
  induction kvs with
  | nil => intro acc h; simpa [findFrame] using h
  | cons kv kvs ih =>
    intro acc h
    simp only [findFrame]
    apply ih
    by_cases hc : (matchEntry kv.2 v
        && decide (DBImitate.get s kv.1 = GetResult.val v)) = true
    · rw [if_pos hc]
      exact nodup_addKey _ h
    · rw [if_neg hc]
      exact h

/-- What the whole find scan collects, over a list of frames. -/
theorem mem_findFrames (s : DBImitate K α) (v : Option α) (j : K) :
    ∀ (fs : List (Frame K α)) (acc : List K),
      j ∈ findFrames s v acc fs ↔
        j ∈ acc ∨ ∃ f ∈ fs, ∃ e, (j, e) ∈ f ∧ matchEntry e v = true ∧
          DBImitate.get s j = .val v := by
  intro fs
  induction fs with
  | nil => intro acc; simp [findFrames]
  | cons f fs ih =>
    intro acc
    simp only [findFrames]
    constructor
    · intro h
      rcases (ih _).mp h with h1 | ⟨f', hf', e, he, hm, hg⟩
      · rcases (mem_findFrame s v j f acc).mp h1 with h2 | ⟨e, he, hm, hg⟩
        · exact Or.inl h2
        · exact Or.inr ⟨f, List.mem_cons_self _ _, e, he, hm, hg⟩
      · exact Or.inr ⟨f', List.mem_cons_of_mem _ hf', e, he, hm, hg⟩
    · rintro (h1 | ⟨f', hf', e, he, hm, hg⟩)
      · exact (ih _).mpr
          (Or.inl ((mem_findFrame s v j f acc).mpr (Or.inl h1)))
      · rcases List.mem_cons.mp hf' with rfl | htail
        · exact (ih _).mpr
            (Or.inl ((mem_findFrame s v j f' acc).mpr
              (Or.inr ⟨e, he, hm, hg⟩)))
        · exact (ih _).mpr (Or.inr ⟨f', htail, e, he, hm, hg⟩)

/-- The whole find scan keeps the collected keys duplicate-free. -/
theorem nodup_findFrames (s : DBImitate K α) (v : Option α) :
    ∀ (fs : List (Frame K α)) (acc : List K),
      acc.Nodup → (findFrames s v acc fs).Nodup := by
  intro fs
  induction fs with
  | nil => intro acc h; simpa [findFrames] using h
  | cons f fs ih =>
    intro acc h
    simp only [findFrames]
    exact ih _ (nodup_findFrame s v f acc h)

end FindLemmas

section ClaimsThree

open DBImitate

/-- C4 (amended): for every state whose frame 0 holds only raw values —
which covers every state reachable without setting `None` during an
active transaction — `get` returns exactly the value of the §3 resolution
rule.  (`get` is a pure function of the state in this embedding, so it
leaves the store unchanged by construction.) -/
theorem get_matches_resolution_rule :
    ∀ (K α : Type) [DecidableEq K] [DecidableEq α] (s : DBImitate K α),
      dbRawOnly s = true →
      ∀ k, DBImitate.get s k = resolutionRuleSpec s k := by
  intro K α _ _ s hdb k
  obtain ⟨db, txs⟩ := s
  have hdb' : ∀ kv ∈ db, (kv.2).isRaw = true := by
    simpa [dbRawOnly, List.all_eq_true] using hdb
  cases txs with
  | nil =>
    simp only [DBImitate.get, resolutionRuleSpec, specScan]
    cases hl : lookupF db k with
    | none => rfl
    | some e => cases e <;> rfl
  | cons f fs =>
    simp only [DBImitate.get, resolutionRuleSpec]
    exact scanLog_eq_specScan db k hdb' (f :: fs)

/-- C4 witness: the rule and `get` agree on a concrete two-frame store. -/
theorem get_matches_resolution_rule_witness :
    DBImitate.get
        (⟨[("a", Entry.raw (some "1"))], [[]]⟩ : DBImitate String String)
        "a" =
      resolutionRuleSpec
        (⟨[("a", Entry.raw (some "1"))], [[]]⟩ : DBImitate String String)
        "a" :=
  get_matches_resolution_rule String String
    ⟨[("a", Entry.raw (some "1"))], [[]]⟩ rfl "a"

/-- C4 counterexample: after `begin; set k None; commit; begin` — a run of
public operations from a fresh store — frame 0 holds the record
`[None, None]` for `k`; the §3 rule finds `k` first in frame 0, whose raw
(stored) value is that record object, while `get` reads the record as a
pending delete and returns `'NULL'`: `get` and the rule disagree on a
reachable state. -/
theorem get_violates_resolution_rule_on_frame0_record :
    run (init : DBImitate String String)
        [.begin, .set "k" none, .commit, .begin] =
      .ok ⟨[("k", .record none none)], [[]]⟩ ∧
    DBImitate.get
        (⟨[("k", .record none none)], [[]]⟩ : DBImitate String String) "k" =
      .null ∧
    resolutionRuleSpec
        (⟨[("k", .record none none)], [[]]⟩ : DBImitate String String) "k" =
      .listVal none none ∧
    DBImitate.get
        (⟨[("k", .record none none)], [[]]⟩ : DBImitate String String) "k" ≠
      resolutionRuleSpec
        (⟨[("k", .record none none)], [[]]⟩ : DBImitate String String) "k" :=
  ⟨rfl, rfl, rfl, by decide⟩

/-- C8: for every state and every value, `find` returns a duplicate-free
sequence containing exactly the keys whose resolved value (as `get`
returns it) is that value; in particular `SET x 1; SET y 1; FIND 1` from
a fresh store returns exactly the keys `x` and `y`. -/
theorem find_exactly_resolved_keys :
    (∀ (K α : Type) [DecidableEq K] [DecidableEq α] (s : DBImitate K α)
       (v : Option α),
       (DBImitate.find s v).Nodup ∧
       ∀ k, k ∈ DBImitate.find s v ↔ DBImitate.get s k = .val v) ∧
    ((run (init : DBImitate String String)
        [.set "x" (some "1"), .set "y" (some "1")]).map
      (fun s => DBImitate.find s (some "1")) = .ok ["y", "x"]) := by
  constructor
  · intro K α _ _ s v
    constructor
    · simp only [DBImitate.find, List.nodup_reverse]
      exact nodup_findFrames s v _ [] List.nodup_nil
    · intro k
      simp only [DBImitate.find, List.mem_reverse]
      rw [mem_findFrames]
      simp only [List.not_mem_nil, false_or]
      constructor
      · rintro ⟨f, hf, e, he, hm, hg⟩
        exact hg
      · intro hg
        cases htxs : s.txs with
        | nil =>
          have hget := hg
          rw [DBImitate.get, htxs] at hget
          cases hl : lookupF s.db k with
          | none => rw [hl] at hget; exact absurd hget (by simp)
          | some e =>
            cases e with
            | raw w =>
              rw [hl] at hget
              have hw : w = v := by
                simpa using hget
              subst hw
              exact ⟨s.db, List.mem_append_right _ (by simp), .raw w,
                mem_of_lookupF hl, by simp [matchEntry], hg⟩
            | record a c =>
              rw [hl] at hget
              exact absurd hget (by simp)
        | cons f0 fs =>
          have hget := hg
          rw [DBImitate.get, htxs] at hget
          rcases scanLog_val_exists k v _ hget with ⟨f, hf, e, he, hv⟩
          exact ⟨f, hf, e, mem_of_lookupF he,
            matchEntry_of_entryView hv, hg⟩
  · rfl

end ClaimsThree

section InvariantLemmas

variable {K α : Type} [DecidableEq K]
open DBImitate

/-- The only exception the commit merge step can signal is the
type-confusion marker — in particular never `TransactionError`, so the
source's `except TransactionError` handler is dead code. -/
theorem mergeStep_error_eq {b : Bool} {p : Frame K α} {kv : K × Entry α}
    {e : PyErr} (h : mergeStep b p kv = .error e) : e = .typeConfusion := by
  obtain ⟨j, ev⟩ := kv
  cases ev with
  | raw w =>
    simp only [mergeStep, Except.error.injEq] at h
    exact h.symm
  | record pr c => cases c <;> simp [mergeStep] at h

/-- The whole commit merge loop can only fail with the type-confusion
marker. -/
theorem foldMerge_error_eq {b : Bool} {e : PyErr} :
    ∀ (t : List (K × Entry α)) (p : Frame K α),
      foldMerge b p t = .error e → e = .typeConfusion := by
  intro t
  induction t with
  | nil => intro p h; simp [foldMerge] at h
  | cons kv kvs ih =>
    intro p h
    cases hms : mergeStep b p kv with
    | ok p1 =>
      rw [foldMerge, hms] at h
      exact ih p1 h
    | error e' =>
      rw [foldMerge, hms] at h
      rw [Except.error.injEq] at h
      exact h ▸ mergeStep_error_eq hms

/-- Merging a top frame into frame 0 (`len(transaction_log) == 2`)
preserves raw-only contents and duplicate-freeness of frame 0, provided
the top frame holds records only, without duplicate keys, and every
pending-delete record's key is present in frame 0. -/
theorem foldMerge_db_preserves {db' : Frame K α} :
    ∀ (t : List (K × Entry α)) (db : Frame K α),
      (∀ kv ∈ db, (kv.2).isRaw = true) → (keysF db).Nodup →
      (∀ kv ∈ t, (kv.2).isRec = true) → (keysF t).Nodup →
      (∀ kv ∈ t, ∀ p : Option α, kv.2 = .record p none →
        (lookupF db kv.1).isSome = true) →
      foldMerge true db t = .ok db' →
      (∀ kv ∈ db', (kv.2).isRaw = true) ∧ (keysF db').Nodup := by
  intro t
  induction t with
  | nil =>
    intro db h1 h4 _ _ _ hok
    rw [foldMerge, Except.ok.injEq] at hok
    exact hok ▸ ⟨h1, h4⟩
  | cons kv kvs ih =>
    intro db h1 h4 hrec hnd hdel hok
    obtain ⟨j, ev⟩ := kv
    have hrec' : ∀ kv ∈ kvs, (kv.2).isRec = true :=
      fun kv h => hrec kv (List.mem_cons_of_mem _ h)
    have hnd' : (keysF kvs).Nodup := by
      simp only [keysF, List.map_cons, List.nodup_cons] at hnd
      simpa [keysF] using hnd.2
    have hjk : j ∉ keysF kvs := by
      simp only [keysF, List.map_cons, List.nodup_cons] at hnd
      simpa [keysF] using hnd.1
    cases ev with
    | raw w =>
      have := hrec (j, .raw w) (List.mem_cons_self _ _)
      simp [Entry.isRec] at this
    | record pr c =>
      cases c with
      | none =>
        have hj : (lookupF db j).isSome = true :=
          hdel (j, .record pr none) (List.mem_cons_self _ _) pr rfl
        rw [foldMerge] at hok
        simp only [mergeStep, hj, if_true] at hok
        refine ih (popF db j) (fun kv h => h1 kv (mem_popF h))
          (nodup_keysF_popF _ h4) hrec' hnd' ?_ hok
        intro kv hkv p hp
        have hne : kv.1 ≠ j := by
          intro hh
          exact hjk (hh ▸ (List.mem_map_of_mem Prod.fst hkv))
        rw [lookupF_popF_ne _ _ _ hne]
        exact hdel kv (List.mem_cons_of_mem _ hkv) p hp
      | some x =>
        rw [foldMerge] at hok
        simp only [mergeStep, if_true] at hok
        refine ih (insertF db j (.raw (some x))) ?_
          (nodup_keysF_insertF _ _ h4) hrec' hnd' ?_ hok
        · intro kv hkv
          rcases mem_insertF hkv with h | h
          · exact h1 kv h
          · rw [h]; rfl
        · intro kv hkv p hp
          exact isSome_lookupF_insertF _ _
            (hdel kv (List.mem_cons_of_mem _ hkv) p hp)

/-- Merging a top frame into a parent transaction frame
(`len(transaction_log) > 2`) preserves record-only contents and
duplicate-freeness of the parent, and keeps every pending-delete record's
key present in frame 0 (which this merge does not touch). -/
theorem foldMerge_tx_preserves {p' : Frame K α} (db : Frame K α) :
    ∀ (t : List (K × Entry α)) (p : Frame K α),
      (∀ kv ∈ p, (kv.2).isRec = true) → (keysF p).Nodup →
      (∀ kv ∈ p, ∀ q : Option α, kv.2 = .record q none →
        (lookupF db kv.1).isSome = true) →
      (∀ kv ∈ t, (kv.2).isRec = true) →
      (∀ kv ∈ t, ∀ q : Option α, kv.2 = .record q none →
        (lookupF db kv.1).isSome = true) →
      foldMerge false p t = .ok p' →
      (∀ kv ∈ p', (kv.2).isRec = true) ∧ (keysF p').Nodup ∧
      (∀ kv ∈ p', ∀ q : Option α, kv.2 = .record q none →
        (lookupF db kv.1).isSome = true) := by
  intro t
  induction t with
  | nil =>
    intro p h2 h5 h3 _ _ hok
    rw [foldMerge, Except.ok.injEq] at hok
    exact hok ▸ ⟨h2, h5, h3⟩
  | cons kv kvs ih =>
    intro p h2 h5 h3 hrec hdel hok
    obtain ⟨j, ev⟩ := kv
    have hrec' : ∀ kv ∈ kvs, (kv.2).isRec = true :=
      fun kv h => hrec kv (List.mem_cons_of_mem _ h)
    have hdel' : ∀ kv ∈ kvs, ∀ q : Option α, kv.2 = .record q none →
        (lookupF db kv.1).isSome = true :=
      fun kv h => hdel kv (List.mem_cons_of_mem _ h)
    cases ev with
    | raw w =>
      have := hrec (j, .raw w) (List.mem_cons_self _ _)
      simp [Entry.isRec] at this
    | record pr c =>
      cases c with
      | none =>
        by_cases hj : (lookupF p j).isSome = true
        · rw [foldMerge] at hok
          simp only [mergeStep, hj, if_true] at hok
          refine ih (popF p j) (fun kv h => h2 kv (mem_popF h))
            (nodup_keysF_popF _ h5)
            (fun kv h => h3 kv (mem_popF h)) hrec' hdel' hok
        · rw [foldMerge] at hok
          simp only [mergeStep, hj, if_false] at hok
          refine ih (insertF p j (.record pr none)) ?_
            (nodup_keysF_insertF _ _ h5) ?_ hrec' hdel' hok
          · intro kv hkv
            rcases mem_insertF hkv with h | h
            · exact h2 kv h
            · rw [h]; rfl
          · intro kv hkv q hq
            rcases mem_insertF hkv with h | h
            · exact h3 kv h q hq
            · rw [h] at hq ⊢
              simp only at hq
              exact hdel (j, .record pr none) (List.mem_cons_self _ _) pr rfl
      | some x =>
        rw [foldMerge] at hok
        simp only [mergeStep, if_false] at hok
        refine ih (insertF p j (.record pr (some x))) ?_
          (nodup_keysF_insertF _ _ h5) ?_ hrec' hdel' hok
        · intro kv hkv
          rcases mem_insertF hkv with h | h
          · exact h2 kv h
          · rw [h]; rfl
        · intro kv hkv q hq
          rcases mem_insertF hkv with h | h
          · exact h3 kv h q hq
          · rw [h] at hq
            simp only [Entry.record.injEq] at hq
            exact absurd hq.2 (by simp)

/-- The rollback restore loop with frame 0 as parent
(`len(transaction_log) == 2`) preserves raw-only contents and
duplicate-freeness of frame 0. -/
theorem foldRb_db_preserves {db' : Frame K α} :
    ∀ (t : List (K × Entry α)) (db : Frame K α),
      (∀ kv ∈ db, (kv.2).isRaw = true) → (keysF db).Nodup →
      foldRb true db t = .ok db' →
      (∀ kv ∈ db', (kv.2).isRaw = true) ∧ (keysF db').Nodup := by
  intro t
  induction t with
  | nil =>
    intro db h1 h4 hok
    rw [foldRb, Except.ok.injEq] at hok
    exact hok ▸ ⟨h1, h4⟩
  | cons kv kvs ih =>
    intro db h1 h4 hok
    obtain ⟨j, ev⟩ := kv
    cases ev with
    | raw w => simp [foldRb, rbStep] at hok
    | record pr c =>
      cases pr with
      | none =>
        rw [foldRb] at hok
        simp only [rbStep] at hok
        exact ih db h1 h4 hok
      | some w =>
        rw [foldRb] at hok
        simp only [rbStep, if_true] at hok
        refine ih (insertF db j (.raw (some w))) ?_
          (nodup_keysF_insertF _ _ h4) hok
        intro kv hkv
        rcases mem_insertF hkv with h | h
        · exact h1 kv h
        · rw [h]; rfl

/-- The rollback restore loop with a transaction frame as parent
(`len(transaction_log) > 2`) preserves record-only contents and
duplicate-freeness of the parent, and keeps every pending-delete record's
key present in frame 0 (untouched by this loop). -/
theorem foldRb_tx_preserves {p' : Frame K α} (db : Frame K α) :
    ∀ (t : List (K × Entry α)) (p : Frame K α),
      (∀ kv ∈ p, (kv.2).isRec = true) → (keysF p).Nodup →
      (∀ kv ∈ p, ∀ q : Option α, kv.2 = .record q none →
        (lookupF db kv.1).isSome = true) →
      foldRb false p t = .ok p' →
      (∀ kv ∈ p', (kv.2).isRec = true) ∧ (keysF p').Nodup ∧
      (∀ kv ∈ p', ∀ q : Option α, kv.2 = .record q none →
        (lookupF db kv.1).isSome = true) := by
  intro t
  induction t with
  | nil =>
    intro p h2 h5 h3 hok
    rw [foldRb, Except.ok.injEq] at hok
    exact hok ▸ ⟨h2, h5, h3⟩
  | cons kv kvs ih =>
    intro p h2 h5 h3 hok
    obtain ⟨j, ev⟩ := kv
    cases ev with
    | raw w => simp [foldRb, rbStep] at hok
    | record pr c =>
      cases pr with
      | none =>
        rw [foldRb] at hok
        simp only [rbStep] at hok
        exact ih p h2 h5 h3 hok
      | some w =>
        rw [foldRb] at hok
        simp only [rbStep, if_false] at hok
        cases hp : lookupF p j with
        | none => rw [hp] at hok; simp at hok
        | some pe =>
          cases pe with
          | raw u => rw [hp] at hok; simp at hok
          | record q cu =>
            rw [hp] at hok
            simp only at hok
            refine ih (insertF p j (.record q (some w))) ?_
              (nodup_keysF_insertF _ _ h5) ?_ hok
            · intro kv hkv
              rcases mem_insertF hkv with h | h
              · exact h2 kv h
              · rw [h]; rfl
            · intro kv hkv r hr
              rcases mem_insertF hkv with h | h
              · exact h3 kv h r hr
              · rw [h] at hr
                simp only [Entry.record.injEq] at hr
                exact absurd hr.2 (by simp)

end InvariantLemmas

section StepPreservation

variable {K α : Type} [DecidableEq K] [DecidableEq α]
open DBImitate

/-- Writing a record with a non-`None` current slot into the top frame
preserves the strengthened invariant. -/
theorem framesOK_insert_top {db t : Frame K α} {rest : List (Frame K α)}
    {k : K} {pr : Option α} {x : α} (h : FramesOK ⟨db, t :: rest⟩) :
    FramesOK ⟨db, insertF t k (.record pr (some x)) :: rest⟩ := by
  obtain ⟨h1, h2, h3, h4, h5⟩ := h
  refine ⟨h1, ?_, ?_, h4, ?_⟩
  · intro f hf kv hkv
    rcases List.mem_cons.mp hf with rfl | hf'
    · rcases mem_insertF hkv with hm | hm
      · exact h2 t (List.mem_cons_self _ _) kv hm
      · rw [hm]; rfl
    · exact h2 f (List.mem_cons_of_mem _ hf') kv hkv
  · intro f hf kv hkv q hq
    rcases List.mem_cons.mp hf with rfl | hf'
    · rcases mem_insertF hkv with hm | hm
      · exact h3 t (List.mem_cons_self _ _) kv hm q hq
      · rw [hm] at hq
        simp only [Entry.record.injEq] at hq
        exact absurd hq.2 (by simp)
    · exact h3 f (List.mem_cons_of_mem _ hf') kv hkv q hq
  · intro f hf
    rcases List.mem_cons.mp hf with rfl | hf'
    · exact nodup_keysF_insertF _ _ (h5 t (List.mem_cons_self _ _))
    · exact h5 f (List.mem_cons_of_mem _ hf')

/-- Dropping a key from the top frame preserves the strengthened
invariant. -/
theorem framesOK_pop_top {db t : Frame K α} {rest : List (Frame K α)}
    {k : K} (h : FramesOK ⟨db, t :: rest⟩) :
    FramesOK ⟨db, popF t k :: rest⟩ := by
  obtain ⟨h1, h2, h3, h4, h5⟩ := h
  refine ⟨h1, ?_, ?_, h4, ?_⟩
  · intro f hf kv hkv
    rcases List.mem_cons.mp hf with rfl | hf'
    · exact h2 t (List.mem_cons_self _ _) kv (mem_popF hkv)
    · exact h2 f (List.mem_cons_of_mem _ hf') kv hkv
  · intro f hf kv hkv q hq
    rcases List.mem_cons.mp hf with rfl | hf'
    · exact h3 t (List.mem_cons_self _ _) kv (mem_popF hkv) q hq
    · exact h3 f (List.mem_cons_of_mem _ hf') kv hkv q hq
  · intro f hf
    rcases List.mem_cons.mp hf with rfl | hf'
    · exact nodup_keysF_popF _ (h5 t (List.mem_cons_self _ _))
    · exact h5 f (List.mem_cons_of_mem _ hf')

/-- Writing a pending-delete record whose key frame 0 holds as a raw
value into the top frame preserves the strengthened invariant. -/
theorem framesOK_insert_delete_top {db t : Frame K α}
    {rest : List (Frame K α)} {k : K} {w : Option α}
    (h : FramesOK ⟨db, t :: rest⟩)
    (hdb : lookupF db k = some (Entry.raw w)) :
    FramesOK ⟨db, insertF t k (.record w none) :: rest⟩ := by
  obtain ⟨h1, h2, h3, h4, h5⟩ := h
  refine ⟨h1, ?_, ?_, h4, ?_⟩
  · intro f hf kv hkv
    rcases List.mem_cons.mp hf with rfl | hf'
    · rcases mem_insertF hkv with hm | hm
      · exact h2 t (List.mem_cons_self _ _) kv hm
      · rw [hm]; rfl
    · exact h2 f (List.mem_cons_of_mem _ hf') kv hkv
  · intro f hf kv hkv q hq
    rcases List.mem_cons.mp hf with rfl | hf'
    · rcases mem_insertF hkv with hm | hm
      · exact h3 t (List.mem_cons_self _ _) kv hm q hq
      · rw [hm]
        simp only [hdb, Option.isSome_some]
    · exact h3 f (List.mem_cons_of_mem _ hf') kv hkv q hq
  · intro f hf
    rcases List.mem_cons.mp hf with rfl | hf'
    · exact nodup_keysF_insertF _ _ (h5 t (List.mem_cons_self _ _))
    · exact h5 f (List.mem_cons_of_mem _ hf')

/-- Pushing an empty frame (begin_transaction) preserves the strengthened
invariant. -/
theorem framesOK_push {db : Frame K α} {txs : List (Frame K α)}
    (h : FramesOK ⟨db, txs⟩) : FramesOK ⟨db, [] :: txs⟩ := by
  obtain ⟨h1, h2, h3, h4, h5⟩ := h
  refine ⟨h1, ?_, ?_, h4, ?_⟩
  · intro f hf kv hkv
    rcases List.mem_cons.mp hf with rfl | hf'
    · simp at hkv
    · exact h2 f hf' kv hkv
  · intro f hf kv hkv q hq
    rcases List.mem_cons.mp hf with rfl | hf'
    · simp at hkv
    · exact h3 f hf' kv hkv q hq
  · intro f hf
    rcases List.mem_cons.mp hf with rfl | hf'
    · simp [keysF]
    · exact h5 f hf'

/-- `set` preserves the strengthened invariant, provided the value is not
`None` while a transaction is active. -/
theorem set_preserves_FramesOK {s s' : DBImitate K α} {k : K}
    {v : Option α} (h : FramesOK s) (hv : s.txs = [] ∨ v.isSome = true)
    (hset : DBImitate.set s k v = .ok s') : FramesOK s' := by
  obtain ⟨db, txs⟩ := s
  cases txs with
  | nil =>
    obtain ⟨h1, h2, h3, h4, h5⟩ := h
    simp only [DBImitate.set, Except.ok.injEq] at hset
    subst hset
    refine ⟨?_, ?_, ?_, nodup_keysF_insertF _ _ h4, ?_⟩
    · intro kv hkv
      rcases mem_insertF hkv with hm | hm
      · exact h1 kv hm
      · rw [hm]; rfl
    · intro f hf; simp at hf
    · intro f hf; simp at hf
    · intro f hf; simp at hf
  | cons t rest =>
    have hvs : v.isSome = true := by
      rcases hv with hh | hh
      · simp at hh
      · exact hh
    obtain ⟨x, rfl⟩ : ∃ x, v = some x := by
      cases v with
      | none => simp at hvs
      | some x => exact ⟨x, rfl⟩
    cases rest with
    | nil =>
      cases hl : lookupF db k with
      | none =>
        simp only [DBImitate.set, hl, Except.ok.injEq] at hset
        subst hset
        exact framesOK_insert_top h
      | some e =>
        cases e with
        | raw w =>
          simp only [DBImitate.set, hl, Except.ok.injEq] at hset
          subst hset
          exact framesOK_insert_top h
        | record a b => simp [DBImitate.set, hl] at hset
    | cons p rest' =>
      cases hl : lookupF p k with
      | none =>
        simp only [DBImitate.set, hl, Except.ok.injEq] at hset
        subst hset
        exact framesOK_insert_top h
      | some e =>
        cases e with
        | raw w => simp [DBImitate.set, hl] at hset
        | record a c =>
          simp only [DBImitate.set, hl, Except.ok.injEq] at hset
          subst hset
          exact framesOK_insert_top h

/-- `unset` preserves the strengthened invariant. -/
theorem unset_preserves_FramesOK {s s' : DBImitate K α} {k : K}
    (h : FramesOK s) (hu : DBImitate.unset s k = .ok s') : FramesOK s' := by
  obtain ⟨db, txs⟩ := s
  cases txs with
  | nil =>
    cases hl : (lookupF db k).isSome with
    | true =>
      simp only [DBImitate.unset, hl, if_true, Except.ok.injEq] at hu
      subst hu
      obtain ⟨h1, h2, h3, h4, h5⟩ := h
      refine ⟨fun kv hkv => h1 kv (mem_popF hkv), ?_, ?_,
        nodup_keysF_popF _ h4, ?_⟩
      · intro f hf; simp at hf
      · intro f hf; simp at hf
      · intro f hf; simp at hf
    | false =>
      simp only [DBImitate.unset, hl, Bool.false_eq_true, if_false,
        Except.ok.injEq] at hu
      subst hu
      exact h
  | cons t rest =>
    cases hl : (lookupF t k).isSome with
    | true =>
      simp only [DBImitate.unset, hl, if_true, Except.ok.injEq] at hu
      subst hu
      exact framesOK_pop_top h
    | false =>
      cases hdb : lookupF db k with
      | none =>
        simp only [DBImitate.unset, hl, Bool.false_eq_true, if_false, hdb,
          Except.ok.injEq] at hu
        subst hu
        exact h
      | some e =>
        cases e with
        | raw w =>
          simp only [DBImitate.unset, hl, Bool.false_eq_true, if_false, hdb,
            Except.ok.injEq] at hu
          subst hu
          exact framesOK_insert_delete_top h hdb
        | record a b => simp [DBImitate.unset, hl, hdb] at hu

/-- `commit_transaction` preserves the strengthened invariant. -/
theorem commit_preserves_FramesOK {s s' : DBImitate K α}
    (h : FramesOK s) (hc : commit_transaction s = .ok s') : FramesOK s' := by
  obtain ⟨db, txs⟩ := s
  obtain ⟨h1, h2, h3, h4, h5⟩ := h
  cases txs with
  | nil =>
    simp only [commit_transaction, Except.ok.injEq] at hc
    subst hc
    exact ⟨h1, h2, h3, h4, h5⟩
  | cons t rest =>
    cases rest with
    | nil =>
      cases hm : foldMerge true db t with
      | ok db1 =>
        simp only [commit_transaction, hm, Except.map,
          Except.ok.injEq] at hc
        subst hc
        obtain ⟨g1, g4⟩ := foldMerge_db_preserves t db h1 h4
          (h2 t (List.mem_cons_self _ _)) (h5 t (List.mem_cons_self _ _))
          (h3 t (List.mem_cons_self _ _)) hm
        exact ⟨g1, by simp, by simp, g4, by simp⟩
      | error e =>
        have he := foldMerge_error_eq t db hm
        subst he
        simp [commit_transaction, hm, Except.map] at hc
    | cons p rest' =>
      cases hm : foldMerge false p t with
      | ok p1 =>
        simp only [commit_transaction, hm, Except.map,
          Except.ok.injEq] at hc
        subst hc
        obtain ⟨g2, g5, g3⟩ := foldMerge_tx_preserves db t p
          (h2 p (List.mem_cons_of_mem _ (List.mem_cons_self _ _)))
          (h5 p (List.mem_cons_of_mem _ (List.mem_cons_self _ _)))
          (h3 p (List.mem_cons_of_mem _ (List.mem_cons_self _ _)))
          (h2 t (List.mem_cons_self _ _))
          (h3 t (List.mem_cons_self _ _)) hm
        refine ⟨h1, ?_, ?_, h4, ?_⟩
        · intro f hf kv hkv
          rcases List.mem_cons.mp hf with rfl | hf'
          · exact g2 kv hkv
          · exact h2 f
              (List.mem_cons_of_mem _ (List.mem_cons_of_mem _ hf')) kv hkv
        · intro f hf kv hkv q hq
          rcases List.mem_cons.mp hf with rfl | hf'
          · exact g3 kv hkv q hq
          · exact h3 f
              (List.mem_cons_of_mem _ (List.mem_cons_of_mem _ hf'))
              kv hkv q hq
        · intro f hf
          rcases List.mem_cons.mp hf with rfl | hf'
          · exact g5
          · exact h5 f
              (List.mem_cons_of_mem _ (List.mem_cons_of_mem _ hf'))
      | error e =>
        have he := foldMerge_error_eq t p hm
        subst he
        simp [commit_transaction, hm, Except.map] at hc

/-- `rollback_transaction` preserves the strengthened invariant. -/
theorem rollback_preserves_FramesOK {s s' : DBImitate K α}
    (h : FramesOK s) (hr : rollback_transaction s = .ok s') :
    FramesOK s' := by
  obtain ⟨db, txs⟩ := s
  obtain ⟨h1, h2, h3, h4, h5⟩ := h
  cases txs with
  | nil =>
    simp only [rollback_transaction, Except.ok.injEq] at hr
    subst hr
    exact ⟨h1, h2, h3, h4, h5⟩
  | cons t rest =>
    cases rest with
    | nil =>
      cases hm : foldRb true db t with
      | ok db1 =>
        simp only [rollback_transaction, hm, Except.map,
          Except.ok.injEq] at hr
        subst hr
        obtain ⟨g1, g4⟩ := foldRb_db_preserves t db h1 h4 hm
        exact ⟨g1, by simp, by simp, g4, by simp⟩
      | error e => simp [rollback_transaction, hm, Except.map] at hr
    | cons p rest' =>
      cases hm : foldRb false p t with
      | ok p1 =>
        simp only [rollback_transaction, hm, Except.map,
          Except.ok.injEq] at hr
        subst hr
        obtain ⟨g2, g5, g3⟩ := foldRb_tx_preserves db t p
          (h2 p (List.mem_cons_of_mem _ (List.mem_cons_self _ _)))
          (h5 p (List.mem_cons_of_mem _ (List.mem_cons_self _ _)))
          (h3 p (List.mem_cons_of_mem _ (List.mem_cons_self _ _))) hm
        refine ⟨h1, ?_, ?_, h4, ?_⟩
        · intro f hf kv hkv
          rcases List.mem_cons.mp hf with rfl | hf'
          · exact g2 kv hkv
          · exact h2 f
              (List.mem_cons_of_mem _ (List.mem_cons_of_mem _ hf')) kv hkv
        · intro f hf kv hkv q hq
          rcases List.mem_cons.mp hf with rfl | hf'
          · exact g3 kv hkv q hq
          · exact h3 f
              (List.mem_cons_of_mem _ (List.mem_cons_of_mem _ hf'))
              kv hkv q hq
        · intro f hf
          rcases List.mem_cons.mp hf with rfl | hf'
          · exact g5
          · exact h5 f
              (List.mem_cons_of_mem _ (List.mem_cons_of_mem _ hf'))
      | error e => simp [rollback_transaction, hm, Except.map] at hr

/-- One successful operation preserves the strengthened invariant, when a
`set` with value `None` is only run outside transactions. -/
theorem step_preserves_FramesOK {s s' : DBImitate K α} {op : Op K α}
    (h : FramesOK s)
    (hsafe : ∀ k v, op = .set k v → s.txs = [] ∨ v.isSome = true)
    (hstep : step s op = .ok s') : FramesOK s' := by
  cases op with
  | set k v => exact set_preserves_FramesOK h (hsafe k v rfl) hstep
  | get k =>
    simp only [step, Except.ok.injEq] at hstep
    subst hstep
    exact h
  | unset k => exact unset_preserves_FramesOK h hstep
  | find v =>
    simp only [step, Except.ok.injEq] at hstep
    subst hstep
    exact h
  | counts v =>
    simp only [step, Except.ok.injEq] at hstep
    subst hstep
    exact h
  | begin =>
    simp only [step, begin_transaction, Except.ok.injEq] at hstep
    subst hstep
    exact framesOK_push h
  | commit => exact commit_preserves_FramesOK h hstep
  | rollback => exact rollback_preserves_FramesOK h hstep

/-- The fresh store satisfies the strengthened invariant. -/
theorem framesOK_init : FramesOK (init : DBImitate K α) := by
  refine ⟨?_, ?_, ?_, ?_, ?_⟩ <;> simp [init, keysF]

/-- The strengthened invariant implies the §3 representation invariant. -/
theorem reprInvariant_of_framesOK {s : DBImitate K α} (h : FramesOK s) :
    reprInvariant s = true := by
  obtain ⟨h1, h2, _, _, _⟩ := h
  simp only [reprInvariant, dbRawOnly, txsRecOnly, Bool.and_eq_true,
    List.all_eq_true]
  exact ⟨h1, h2⟩

/-- A whole successful run of operations that never sets `None` inside a
transaction preserves the strengthened invariant. -/
theorem run_preserves_FramesOK :
    ∀ (ops : List (Op K α)) (s s' : DBImitate K α),
      FramesOK s → safeOps s ops = true → run s ops = .ok s' →
      FramesOK s' := by
  intro ops
  induction ops with
  | nil =>
    intro s s' h _ hrun
    simp only [run, Except.ok.injEq] at hrun
    subst hrun
    exact h
  | cons op ops ih =>
    intro s s' h hsafe hrun
    simp only [run] at hrun
    cases hstep : step s op with
    | error e =>
      rw [hstep] at hrun
      exact absurd hrun (by simp)
    | ok s1 =>
      rw [hstep] at hrun
      simp only [safeOps, Bool.and_eq_true] at hsafe
      obtain ⟨hcond, hrest⟩ := hsafe
      rw [hstep] at hrest
      refine ih s1 s' (step_preserves_FramesOK h ?_ hstep) hrest hrun
      intro k v hop
      subst hop
      simp only [Bool.or_eq_true] at hcond
      rcases hcond with h1 | h1
      · left
        cases htxs : s.txs with
        | nil => rfl
        | cons a b =>
          rw [htxs] at h1
          simp [List.isEmpty] at h1
      · right
        exact h1

end StepPreservation

section ClaimsFour

open DBImitate

/-- C9 (amended): after any successful sequence of operations from a
fresh store in which `set` is never called with the value `None` while a
transaction is active, the representation invariant holds: frame 0 maps
keys only to raw values and every transaction frame maps keys exclusively
to change records (the stack structurally always keeps frame 0). -/
theorem repr_invariant_of_safe_run :
    ∀ (K α : Type) [DecidableEq K] [DecidableEq α] (ops : List (Op K α))
      (s : DBImitate K α),
      safeOps init ops = true → run init ops = .ok s →
      reprInvariant s = true := by
  intro K α _ _ ops s hsafe hrun
  exact reprInvariant_of_framesOK
    (run_preserves_FramesOK ops init s framesOK_init hsafe hrun)

/-- C9 witness: a concrete safe run ending in an invariant-satisfying
state. -/
theorem repr_invariant_of_safe_run_witness :
    reprInvariant
        (⟨[("a", Entry.raw (some "1"))], []⟩ : DBImitate String String) =
      true :=
  repr_invariant_of_safe_run String String
    [.begin, .set "a" (some "1"), .commit]
    ⟨[("a", Entry.raw (some "1"))], []⟩ rfl rfl

/-- C9 counterexample: the public run `begin; set k None; commit` — three
operations from a fresh store — leaves the change record `[None, None]`
stored in frame 0, so "frame 0 maps keys only to raw values" fails after
this sequence: the commit's delete branch finds `k` absent from frame 0
and executes `transaction_log[-2][key] = [None, None]` with frame 0 as
`transaction_log[-2]`. -/
theorem frame0_holds_record_after_set_none :
    run (init : DBImitate String String) [.begin, .set "k" none, .commit] =
      .ok ⟨[("k", .record none none)], []⟩ ∧
    reprInvariant
        (⟨[("k", .record none none)], []⟩ : DBImitate String String) =
      false :=
  ⟨rfl, rfl⟩

end ClaimsFour

section Witnesses

open DBImitate

/-- C7 witness: in a depth-3 stack whose frame 0 holds `k` but whose
(empty) parent frame does not, `set` records `previous` as absent even
though the ancestor value exists. -/
theorem set_shallow_previous_witness :
    (∀ a c : Option String,
        lookupF ([] : Frame String String) "k" = some (.record a c) →
        DBImitate.set
            (⟨[("k", Entry.raw (some "0"))], [[], []]⟩ :
              DBImitate String String) "k" (some "9") =
          .ok ⟨[("k", Entry.raw (some "0"))],
            insertF [] "k" (.record c (some "9")) :: [] :: []⟩) ∧
    (lookupF ([] : Frame String String) "k" = none →
        DBImitate.set
            (⟨[("k", Entry.raw (some "0"))], [[], []]⟩ :
              DBImitate String String) "k" (some "9") =
          .ok ⟨[("k", Entry.raw (some "0"))],
            insertF [] "k" (.record none (some "9")) :: [] :: []⟩) :=
  set_shallow_previous String String
    ⟨[("k", Entry.raw (some "0"))], [[], []]⟩ "k" (some "9") [] [] [] rfl

/-- C6 witness: committing a top frame holding a pending delete for `k`
over a parent frame that also records `k` drops the parent's record. -/
theorem commit_absorbs_child_delete_witness :
    ∃ p', commit_transaction
        (⟨[("k", Entry.raw (some "1"))],
          [[("k", Entry.record (some "1") none)],
           [("k", Entry.record (some "1") none)]]⟩ :
          DBImitate String String) =
      .ok ⟨[("k", Entry.raw (some "1"))], p' :: []⟩ ∧
      lookupF p' "k" = none :=
  commit_absorbs_child_delete.1 String String
    ⟨[("k", Entry.raw (some "1"))],
      [[("k", Entry.record (some "1") none)],
       [("k", Entry.record (some "1") none)]]⟩
    "k" (some "1") [("k", Entry.record (some "1") none)]
    [("k", Entry.record (some "1") none)] [] rfl (by decide) (by decide)
    (by decide) rfl rfl

/-- C10 witness: inside a transaction `set k None; get k` yields the
sentinel, outside one it yields `None` itself. -/
theorem set_none_collides_with_delete_marker_witness :
    DBImitate.get
        (⟨[], [[("k", Entry.record none none)]]⟩ : DBImitate String String)
        "k" = .null ∧
    DBImitate.get
        (⟨[("k", Entry.raw none)], []⟩ : DBImitate String String) "k" =
      .val none :=
  ⟨set_none_collides_with_delete_marker.1 String String ⟨[], [[]]⟩
      ⟨[], [[("k", Entry.record none none)]]⟩ "k"
      (List.cons_ne_nil _ _) rfl,
    (set_none_collides_with_delete_marker.2 String String ⟨[], []⟩ "k"
      rfl).2⟩

end Witnesses

end DB
